import Mathlib

/-!
Verification of the coral structured-concurrency library.

Shallow embedding of the core state machines of the library:
single_event (single_event.hpp), the nursery child counter (nursery.hpp),
the when_all / when_all_complete / when_any combinator awaiters
(when_all.hpp, when_all_complete.hpp, when_any.hpp), the async mutex word
protocol (mutex.hpp), and the synchronous generator (generator.hpp).

Atomic read-modify-write sequences of the source are modelled as pure
state-transition functions; concurrent histories are modelled as
linearized event lists fed to those transition functions.
-/

namespace Coral

/-- Indicator of a Bool, used to state counting invariants. -/
def bi (f : Bool) : Nat := if f then 1 else 0

/-! ## single_event (single_event.hpp)

State is one byte of three flag bits, a value-or-exception slot and the
stored awaiter continuation.  `resumes` counts how many times the stored
awaiter continuation has been resumed (by `on_result_set`). -/

namespace SingleEvent

structure Flags where
  hasSender : Bool
  hasValue : Bool
  hasAwaiter : Bool
deriving DecidableEq, Repr

/-- A stored exception: either a user exception deposited through
`sender::set_exception`, or the synthetic `single_event_error("sender deleted")`
injected by `release_sender`. -/
inductive Exn (ε : Type) where
  | user (e : ε)
  | senderDeleted
deriving DecidableEq, Repr

/-- The `value_` variant slot: `std::variant<std::monostate, std::exception_ptr, T>`. -/
inductive Stored (α ε : Type) where
  | empty
  | exn (e : Exn ε)
  | val (v : α)
deriving DecidableEq, Repr

/-- Outcome of `awaiter::await_resume`. -/
inductive ResumeRes (α ε : Type) where
  | ok (v : α)
  | noSender
  | thrown (e : Exn ε)
  | badVariant
deriving DecidableEq, Repr

structure State (α ε : Type) where
  flags : Flags
  value : Stored α ε
  resumes : Nat
deriving DecidableEq, Repr

def State.init {α ε : Type} : State α ε := ⟨⟨false, false, false⟩, .empty, 0⟩

/-- `awaiter::is_ready`: `has_value` set or `has_sender` clear. -/
def isReady (f : Flags) : Bool := f.hasValue || !f.hasSender

/-- `single_event::on_result_set`: OR in `has_value`; if the pre-state had
`has_awaiter`, resume the stored continuation. -/
def on_result_set {α ε : Type} (s : State α ε) : State α ε :=
  { s with
    flags := { s.flags with hasValue := true }
    resumes := if s.flags.hasAwaiter then s.resumes + 1 else s.resumes }

/-- `single_event::set_value` (non-void): emplace the value, then `on_result_set`. -/
def set_value {α ε : Type} (s : State α ε) (v : α) : State α ε :=
  on_result_set { s with value := .val v }

/-- `single_event::set_exception`: emplace the exception, then `on_result_set`. -/
def set_exception {α ε : Type} (s : State α ε) (e : Exn ε) : State α ε :=
  on_result_set { s with value := .exn e }

/-- `single_event::set_sender`: OR in `has_sender`; the returned Bool is true
when the call throws `single_event_error("sender already exist")`. -/
def set_sender {α ε : Type} (s : State α ε) : State α ε × Bool :=
  ({ s with flags := { s.flags with hasSender := true } }, s.flags.hasSender)

/-- `single_event::release_sender`: AND out `has_sender`; if no value was ever
set and an awaiter is present, inject the "sender deleted" exception. -/
def release_sender {α ε : Type} (s : State α ε) : State α ε :=
  let s1 : State α ε := { s with flags := { s.flags with hasSender := false } }
  if s.flags.hasValue then s1
  else if s.flags.hasAwaiter then set_exception s1 .senderDeleted
  else s1

/-- `awaiter::await_ready`. -/
def await_ready {α ε : Type} (s : State α ε) : Bool := isReady s.flags

/-- `awaiter::await_suspend`: store the continuation, OR in `has_awaiter`;
the returned Bool is true when the awaiter actually suspends. -/
def await_suspend {α ε : Type} (s : State α ε) : State α ε × Bool :=
  ({ s with flags := { s.flags with hasAwaiter := true } }, !isReady s.flags)

/-- `awaiter::await_resume`: re-check `has_sender` (throw "no sender" when it
is clear), then rethrow a stored exception or move the value out.  Reading the
value alternative while the slot is empty is `std::get` on the wrong
alternative, modelled as `badVariant`. -/
def await_resume {α ε : Type} (s : State α ε) : ResumeRes α ε :=
  if !s.flags.hasSender then .noSender
  else
    match s.value with
    | .exn e => .thrown e
    | .val v => .ok v
    | .empty => .badVariant

/-- A `single_event::sender` handle together with the event it refers to:
`senderAttached` is true while the sender's `event_` pointer is non-null. -/
structure World (α ε : Type) where
  event : State α ε
  senderAttached : Bool
deriving DecidableEq, Repr

/-- `sender::set_value`: exchange `event_` with null; when it was non-null,
forward to the event, otherwise throw (returned Bool). -/
def sender_set_value {α ε : Type} (w : World α ε) (v : α) : World α ε × Bool :=
  if w.senderAttached then (⟨set_value w.event v, false⟩, false) else (w, true)

/-- `sender::set_exception`: same exchange-then-forward protocol. -/
def sender_set_exception {α ε : Type} (w : World α ε) (e : ε) : World α ε × Bool :=
  if w.senderAttached then (⟨set_exception w.event (.user e), false⟩, false) else (w, true)

/-- `sender::~sender` / `sender::release`: call `release_sender` only when
`event_` is still non-null. -/
def sender_drop {α ε : Type} (w : World α ε) : World α ε :=
  if w.senderAttached then ⟨release_sender w.event, false⟩ else w

/-- The concrete run behind the C2 counterexample: fresh event, sender
attached, awaiter suspends, then the sender is dropped without setting. -/
def dropScenario : State Nat Nat :=
  let s1 := (set_sender (State.init (α := Nat) (ε := Nat))).1
  let s2 := (await_suspend s1).1
  release_sender s2

end SingleEvent

/-! ## Nursery child counter (nursery.hpp)

`nursery_task_promise_base` carries `child_counter_` (atomic int, initially 0)
and a parent continuation.  `child_started` increments the counter
(`nursery::start`); `child_completed` decrements it and returns the parent
continuation exactly when the decrement observed the value 0
(`fetch_sub(1) == 0`).  `child_completed` is called once by every spawned
child at its final suspend and once by the parent task's own final awaiter.

A lifetime of the promise is modelled as a linearized list of events. -/

namespace Nursery

inductive NEv where
  | start
  | complete
  | pfinal
deriving DecidableEq, Repr

/-- Promise state: the child counter and how many times the parent
continuation has been resumed. -/
structure NSt where
  counter : Int
  resumes : Nat
deriving DecidableEq, Repr

/-- `nursery_task_promise_base::child_started`: `child_counter_.fetch_add(1)`. -/
def child_started (s : NSt) : NSt := { s with counter := s.counter + 1 }

/-- `nursery_task_promise_base::child_completed`:
`if (child_counter_.fetch_sub(1) == 0) return continuation_;` — the parent
continuation is resumed exactly when the pre-decrement value was 0. -/
def child_completed (s : NSt) : NSt :=
  { counter := s.counter - 1
    resumes := if s.counter = 0 then s.resumes + 1 else s.resumes }

def nstep (s : NSt) : NEv → NSt
  | .start => child_started s
  | .complete => child_completed s
  | .pfinal => child_completed s

def nrun (es : List NEv) : NSt := es.foldl nstep ⟨0, 0⟩

def nstarts : List NEv → Nat
  | [] => 0
  | .start :: es => nstarts es + 1
  | .complete :: es => nstarts es
  | .pfinal :: es => nstarts es

def ncompletes : List NEv → Nat
  | [] => 0
  | .start :: es => ncompletes es
  | .complete :: es => ncompletes es + 1
  | .pfinal :: es => ncompletes es

def nfinals : List NEv → Nat
  | [] => 0
  | .start :: es => nfinals es
  | .complete :: es => nfinals es
  | .pfinal :: es => nfinals es + 1

/-- Well-formed event lists, threading (children started, children completed,
parent finished): a child completes only after it started, the parent
finishes exactly once, and `nursery::start` is only reachable while the
parent body has not returned. -/
def nok : List NEv → Nat → Nat → Bool → Bool
  | [], _, _, _ => true
  | .start :: es, s, c, f => !f && nok es (s + 1) c f
  | .complete :: es, s, c, f => decide (c < s) && nok es s (c + 1) f
  | .pfinal :: es, s, c, f => !f && nok es s c true

def nvalid (es : List NEv) : Bool := nok es 0 0 false

/-- A complete lifetime of the nursery promise: valid, every started child
has completed, and the parent reached its final suspend. -/
def isFullTrace (es : List NEv) : Bool :=
  nvalid es && decide (ncompletes es = nstarts es) && decide (nfinals es = 1)

end Nursery

/-! ## when_all combinator (when_all.hpp)

The awaiter owns `counter_` (initialized to the task count N),
`first_failed_task_index_` (initialized to the sentinel N), an optional
stop source, and the parent continuation.  `on_ready(index, success)` is
invoked once per adapter task at its final suspend; completions are
modelled as a linearized list of `(index, success)` events. -/

namespace WhenAll

structure WASt where
  counter : Int
  firstFailed : Nat
  stopRequested : Bool
  resumes : Nat
deriving DecidableEq, Repr

def waInit (n : Nat) : WASt := ⟨(n : Int), n, false, 0⟩

/-- `awaiter::on_ready(index, success)`: on failure, CAS
`first_failed_task_index_` from the sentinel N to `index` and — if the CAS
succeeded and a stop source was supplied — call `request_stop()`; then
`counter_.fetch_sub(1)`, and the decrement that observes 1 returns the
parent continuation (counted by `resumes`). -/
def on_ready (n : Nat) (hasStop : Bool) (st : WASt) (ev : Nat × Bool) : WASt :=
  { counter := st.counter - 1
    firstFailed := if !ev.2 && decide (st.firstFailed = n) then ev.1 else st.firstFailed
    stopRequested := st.stopRequested || (hasStop && (!ev.2 && decide (st.firstFailed = n)))
    resumes := if st.counter = 1 then st.resumes + 1 else st.resumes }

/-- Index carried by the first failing completion event (the CAS winner),
or the sentinel N when no event failed. -/
def firstFailIdx (n : Nat) : List (Nat × Bool) → Nat
  | [] => n
  | e :: es => if e.2 = false then e.1 else firstFailIdx n es

def anyFail (events : List (Nat × Bool)) : Bool := events.any fun e => !e.2

/-- `awaiter::await_resume` (exception surface): when
`first_failed_task_index_ < N` the stored exception of that task is
rethrown; otherwise the collected values are returned. -/
def wa_await_resume {ε α : Type} (n : Nat) (errs : Nat → ε) (vals : Nat → α)
    (st : WASt) : Except ε (List α) :=
  if st.firstFailed < n then .error (errs st.firstFailed) else .ok ((List.range n).map vals)

/-- Behaviour of one adapter task when it is started by `await_suspend`:
either it runs to its final suspend synchronously (with the given success
flag), or it suspends inside and completes later (`pend`). -/
inductive TB where
  | sync (ok : Bool)
  | pend
deriving DecidableEq, Repr

/-- `adaptor_task::start(cb)` as seen by the awaiter state: a synchronous
task invokes `on_ready` before `start` returns; a pending one does not. -/
def startOne (n : Nat) (hasStop : Bool) (st : WASt) (i : Nat) (b : TB) : WASt :=
  match b with
  | .sync ok => on_ready n hasStop st (i, ok)
  | .pend => st

/-- Number of tasks in the list that suspend when started. -/
def pendCnt : List TB → Nat
  | [] => 0
  | .pend :: bs => pendCnt bs + 1
  | .sync _ :: bs => pendCnt bs

/-- The sequential start loop of `await_suspend` over tasks `0 .. N-2`:
start task i, then check `first_failed_task_index_ ≤ i`; on a hit, skip the
remaining tasks, subtract `left_to_run = N - (i+1)` from the counter in one
step, and resume the parent if the counter held exactly `left_to_run`.
Returns the state and the short-circuit index, if any. -/
def loopGo (n : Nat) (hasStop : Bool) : List TB → Nat → WASt → WASt × Option Nat
  | [], _, st => (st, none)
  | b :: rest, i, st =>
    let st1 := startOne n hasStop st i b
    if st1.firstFailed ≤ i then
      ({ st1 with
          counter := st1.counter - ((n : Int) - ((i : Int) + 1))
          resumes := if st1.counter = (n : Int) - ((i : Int) + 1) then st1.resumes + 1
                     else st1.resumes },
        some i)
    else loopGo n hasStop rest (i + 1) st1

structure SuspOut where
  st : WASt
  started : Nat
  sc : Option Nat
deriving DecidableEq, Repr

/-- `awaiter::await_suspend`: run the start loop over tasks `0 .. N-2`; when
it is not short-circuited, `setup` the last task and symmetric-transfer into
it (so the last task also counts as started, and a synchronous last task
invokes `on_ready` as well). -/
def wa_await_suspend (hasStop : Bool) (bs : List TB) : SuspOut :=
  let n := bs.length
  match loopGo n hasStop bs.dropLast 0 (waInit n) with
  | (st, some i) => ⟨st, i + 1, some i⟩
  | (st, none) =>
    match bs.getLast? with
    | some b => ⟨startOne n hasStop st (n - 1) b, n, none⟩
    | none => ⟨st, 0, none⟩

/-- Whole synchronous pipeline: `await_suspend`, then `await_resume`
(all tasks synchronous, as in the `sync_wait(when_all(...))` scenario);
also reports how many tasks were started. -/
def whenAllSyncRun {ε α : Type} (hasStop : Bool) (bs : List TB)
    (errs : Nat → ε) (vals : Nat → α) : Except ε (List α) × Nat :=
  let out := wa_await_suspend hasStop bs
  (wa_await_resume bs.length errs vals out.st, out.started)

end WhenAll

/-! ## when_all_complete combinator (when_all_complete.hpp)

Same fan-out as `when_all`, but `on_ready` ignores the success flag, every
task's result is collected as `async_result` (`ok(v) | err(ex)`), and the
combinator itself never throws. -/

namespace WhenAllComplete

structure WCSt where
  counter : Int
  resumes : Nat
deriving DecidableEq, Repr

def wcInit (n : Nat) : WCSt := ⟨(n : Int), 0⟩

/-- `awaiter::on_ready(success)`: the success flag is unused; the decrement
of `counter_` that observes 1 returns the parent continuation. -/
def wc_on_ready (st : WCSt) (_success : Bool) : WCSt :=
  { counter := st.counter - 1
    resumes := if st.counter = 1 then st.resumes + 1 else st.resumes }

/-- A completed adapter task's stored result: a value or an exception. -/
inductive Outcome (α ε : Type) where
  | val (v : α)
  | exn (e : ε)
deriving DecidableEq, Repr

/-- `async_result<T>`: `ok(v)` or `err(e)`. -/
inductive AsyncResult (α ε : Type) where
  | ok (v : α)
  | err (e : ε)
deriving DecidableEq, Repr

/-- `adapter_promise::get_result`: non-throwing retrieval of the stored
result of a completed task. -/
def get_result {α ε : Type} : Outcome α ε → AsyncResult α ε
  | .val v => .ok v
  | .exn e => .err e

/-- `awaiter::await_ready` of the range version: true iff the task vector is
empty. -/
def wc_await_ready {α ε : Type} (tasks : List (Outcome α ε)) : Bool := tasks.isEmpty

/-- `awaiter::await_resume` of the range version: push `get_result()` of
every task, in input order. -/
def wc_await_resume {α ε : Type} (tasks : List (Outcome α ε)) : List (AsyncResult α ε) :=
  tasks.map get_result

end WhenAllComplete

/-! ## when_any combinator (when_any.hpp)

Only the parts needed here: the awaiter of the range version keeps
`first_completed_task_index_` and `first_failed_task_index_` (both
initialized to the sentinel N) and `await_resume` raises the no-tasks error
for an empty vector. -/

namespace WhenAny

structure WAnySt where
  counter : Int
  firstCompleted : Nat
  firstFailed : Nat
  stopRequested : Bool
  resumes : Nat
deriving DecidableEq, Repr

def wanyInit (n : Nat) : WAnySt := ⟨(n : Int), n, n, false, 0⟩

/-- Result surface of `when_any_task_range::awaiter::await_resume` (exception
build): the no-tasks error, the first-failing task's rethrown exception, or
the pair (winning index, value). -/
inductive WanyRes (α ε : Type) where
  | noTasks
  | err (i : Nat) (e : ε)
  | okv (i : Nat) (v : α)
deriving DecidableEq, Repr

/-- `awaiter::await_ready` of the range version: true iff the task vector is
empty, so an empty range never suspends the caller. -/
def wany_await_ready {α ε : Type} (tasks : List (WhenAllComplete.Outcome α ε)) : Bool :=
  tasks.isEmpty

/-- `awaiter::await_resume` of the range version: `invalid_index` is the task
count; when it is 0 throw `std::runtime_error("no tasks")`; when no task
completed successfully rethrow the first-failing task's exception; otherwise
return the winning index and its value. -/
def wany_await_resume {α ε : Type} (n : Nat) (st : WAnySt)
    (errs : Nat → ε) (vals : Nat → α) : WanyRes α ε :=
  if n = 0 then .noTasks
  else if st.firstCompleted = n then .err st.firstFailed (errs st.firstFailed)
  else .okv st.firstCompleted (vals st.firstCompleted)

end WhenAny

/-! ## Async mutex (mutex.hpp)

The single atomic word `list_` holds `unlocked` (null), `locked`
(address 1), or the head of the intrusive stack of waiter nodes; a node is
modelled by its continuation handle. -/

namespace Mutex

inductive Head where
  | unlocked
  | locked
  | node (h : Nat)
deriving DecidableEq, Repr

/-- `mutex::try_unlock`: CAS-swap the word (`locked` ↦ `unlocked`, anything
else ↦ `locked`), then `std::abort()` — modelled as `none` — when the
observed value was `unlocked`; otherwise return (new word, observed word). -/
def try_unlock (head : Head) : Option (Head × Head) :=
  match head with
  | .unlocked => none
  | .locked => some (.unlocked, .locked)
  | .node h => some (.locked, .node h)

/-- `mutex::try_lock(cur)`: CAS-swap the word (`unlocked` ↦ `locked`,
anything else ↦ the caller's own node) and return (new word, observed word);
the caller owns the lock iff the observed word was `unlocked`. -/
def try_lock (cur : Nat) (head : Head) : Head × Head :=
  match head with
  | .unlocked => (.locked, .unlocked)
  | h => (.node cur, h)

/-- The mutex word together with whether some coroutine currently holds the
lock. -/
structure MSys where
  head : Head
  holder : Bool
deriving DecidableEq, Repr

/-- Transitions of the mutex protocol: an acquiring `try_lock` (observes
`unlocked`), a queueing `try_lock` (observes anything else and pushes its
node), an unlock with no waiters (`try_unlock` observes `locked`), and an
unlock that hands the lock off to the head waiter (`try_unlock` observes a
node; ownership passes to the resumed waiter). -/
inductive MStep : MSys → MSys → Prop where
  | lock_acquire (s : MSys) : s.head = .unlocked → MStep s ⟨.locked, true⟩
  | lock_queue (s : MSys) (cur : Nat) : s.head ≠ .unlocked → MStep s ⟨.node cur, s.holder⟩
  | unlock_free (s : MSys) : s.holder = true → s.head = .locked → MStep s ⟨.unlocked, false⟩
  | unlock_handoff (s : MSys) (h : Nat) : s.holder = true → s.head = .node h →
      MStep s ⟨.locked, true⟩

/-- States reachable from a freshly constructed mutex (word `unlocked`, no
holder). -/
def Reachable (s : MSys) : Prop := Relation.ReflTransGen MStep ⟨.unlocked, false⟩ s

/-- A `unique_lock`: the stored mutex pointer (false once released or moved
from) and the stored `next_` word. -/
structure UL where
  hasMutex : Bool
  nxt : Head
deriving DecidableEq, Repr

/-- Result of one `unique_lock::unlock()` call: the lock object afterwards,
the mutex word afterwards, the continuation handed to the scheduler (if
any), whether `mutex::try_unlock` was invoked, and whether its abort path
was reached (in which case the process dies and no fields are written). -/
structure UnlockOut where
  ul : UL
  head : Head
  sched : Option Nat
  usedTryUnlock : Bool
  aborted : Bool
deriving DecidableEq, Repr

/-- `unique_lock::unlock`: when `next_` is a real waiter node, schedule its
continuation directly without touching the mutex word; otherwise, when the
mutex pointer is still set, run `try_unlock` and schedule the returned
waiter (if the observed word was a node); finally store `locked` into
`next_` and null into the mutex pointer. -/
def ul_unlock (ul : UL) (head : Head) : UnlockOut :=
  match ul.nxt with
  | .node h => ⟨⟨false, .locked⟩, head, some h, false, false⟩
  | _ =>
    if ul.hasMutex then
      match try_unlock head with
      | none => ⟨ul, head, none, true, true⟩
      | some (newHead, .node h) => ⟨⟨false, .locked⟩, newHead, some h, true, false⟩
      | some (newHead, _) => ⟨⟨false, .locked⟩, newHead, none, true, false⟩
    else ⟨⟨false, .locked⟩, head, none, false, false⟩

end Mutex

/-! ## Synchronous generator (generator.hpp)

The consumer drives the producer with an iterator: `begin()` resumes once
and rethrows a stored exception, `operator++` resumes and rethrows,
`operator*` reads the current slot, and the iterator compares equal to the
default sentinel when the handle is null or the producer reached its final
suspend. -/

namespace Generator

/-- A producer coroutine frame: the values its body yields in order (after
which the body returns, or throws — `finalExn` is what
`unhandled_exception` stores in that case), plus how many times the handle
has been resumed. -/
structure GenCoro (α ε : Type) where
  yields : List α
  finalExn : Option ε
  resumed : Nat
deriving DecidableEq, Repr

/-- `handle.done()`: the producer is suspended at its final suspend point,
which happens at the resume after the last yield. -/
def gdone {α ε : Type} (c : GenCoro α ε) : Bool := decide (c.yields.length + 1 ≤ c.resumed)

/-- `handle.resume()`. -/
def gresume {α ε : Type} (c : GenCoro α ε) : GenCoro α ε := { c with resumed := c.resumed + 1 }

/-- The value slot the promise's `value_` pointer refers to while the
producer is suspended at its `resumed`-th yield. -/
def gvalue {α ε : Type} (c : GenCoro α ε) : Option α := c.yields.get? (c.resumed - 1)

/-- `rethrow_if_exception`: a stored exception exists only once the body has
finished (by throwing). -/
def gexn {α ε : Type} (c : GenCoro α ε) : Option ε :=
  if gdone c then c.finalExn else none

/-- `generator::iterator`: a possibly null coroutine handle (null for a
default-constructed generator or a moved-from iterator). -/
def Iter (α ε : Type) := Option (GenCoro α ε)

/-- `operator==(iterator, default_sentinel)`: `!coro_ || coro_.done()`. -/
def itAtEnd {α ε : Type} : Iter α ε → Bool
  | none => true
  | some c => gdone c

/-- `iterator::operator++`: resume the producer, then rethrow a stored
exception. -/
def itNext {α ε : Type} : Iter α ε → Except ε (Iter α ε)
  | none => .ok none
  | some c =>
    match gexn (gresume c) with
    | some e => .error e
    | none => .ok (some (gresume c))

/-- `iterator::operator*`. -/
def itDeref {α ε : Type} : Iter α ε → Option α
  | none => none
  | some c => gvalue c

/-- `generator::begin`: when the handle is non-null, resume once and rethrow
a stored exception; the iterator holds the same handle. -/
def gbegin {α ε : Type} : Option (GenCoro α ε) → Except ε (Iter α ε)
  | none => .ok none
  | some c =>
    match gexn (gresume c) with
    | some e => .error e
    | none => .ok (some (gresume c))

/-- Consume the generator from an iterator position: collect `*it` and `++it`
until the iterator compares equal to the sentinel (with explicit fuel; the
corner cases never reached on a returning producer yield nothing). -/
def gwalk {α ε : Type} : Nat → Iter α ε → List α × Iter α ε
  | 0, it => ([], it)
  | fuel + 1, it =>
    if itAtEnd it then ([], it)
    else
      match itDeref it, itNext it with
      | some v, .ok it2 =>
        let r := gwalk fuel it2
        (v :: r.1, r.2)
      | _, _ => ([], it)

end Generator

end Coral

namespace Coral

open SingleEvent

/-- Claim C2 (counterexample): in the reachable state where the sender was
dropped after the awaiter suspended, `release_sender` has deposited the
"sender deleted" exception, yet `await_resume` raises a fresh "no sender"
error instead of rethrowing the stored exception.  This falsifies the claim
that the no-sender error is raised only when no value or exception has been
deposited. -/
theorem claim_C2_counterexample :
    dropScenario.value = Stored.exn Exn.senderDeleted ∧
    dropScenario.flags.hasSender = false ∧
    await_resume dropScenario = ResumeRes.noSender := by
  refine ⟨rfl, rfl, rfl⟩

/-- Claim C2 (amended): `await_resume` raises the no-sender error exactly when
the has-sender bit is clear, regardless of whether a value or exception has
been deposited; when has-sender is set it rethrows a stored exception or
returns the value by moving it out. -/
theorem claim_C2 {α ε : Type} (s : State α ε) :
    (await_resume s = ResumeRes.noSender ↔ s.flags.hasSender = false) ∧
    (s.flags.hasSender = true → ∀ e, s.value = .exn e → await_resume s = .thrown e) ∧
    (s.flags.hasSender = true → ∀ v, s.value = .val v → await_resume s = .ok v) := by
  obtain ⟨⟨hs, hv, ha⟩, value, r⟩ := s
  refine ⟨?_, ?_, ?_⟩
  · cases hs <;> cases value <;> simp [await_resume]
  · rintro h e rfl
    subst h
    simp [await_resume]
  · rintro h v rfl
    subst h
    simp [await_resume]

/-- Witness for claim C2 at concrete states. -/
theorem claim_C2_witness :
    await_resume (⟨⟨true, true, false⟩, .val 5, 0⟩ : State Nat Nat) = ResumeRes.ok 5 ∧
    await_resume (⟨⟨false, false, false⟩, .empty, 0⟩ : State Nat Nat) = ResumeRes.noSender := by
  constructor
  · exact (claim_C2 ⟨⟨true, true, false⟩, .val 5, 0⟩).2.2 rfl 5 rfl
  · exact (claim_C2 ⟨⟨false, false, false⟩, .empty, 0⟩).1.mpr rfl

/-- Claim C10: once `sender::set_value` or `sender::set_exception` has been
called, the sender is detached (its event pointer is null): the call does not
throw, a later drop of the sender leaves the event untouched (so it cannot
clear has-sender or inject the sender-deleted error), the awaiter observes
exactly the deposited value or exception, and a second set on the same
entitlement throws `single_event_error`. -/
theorem claim_C10 {α ε : Type} (w : World α ε) (v : α) (e : ε)
    (hatt : w.senderAttached = true) (hs : w.event.flags.hasSender = true) :
    ((sender_set_value w v).2 = false ∧
      (sender_set_value w v).1.senderAttached = false ∧
      (sender_set_value w v).1.event.flags.hasSender = true ∧
      sender_drop (sender_set_value w v).1 = (sender_set_value w v).1 ∧
      (∀ v2, (sender_set_value (sender_set_value w v).1 v2).2 = true ∧
        (sender_set_value (sender_set_value w v).1 v2).1 = (sender_set_value w v).1) ∧
      (∀ e2, (sender_set_exception (sender_set_value w v).1 e2).2 = true) ∧
      await_resume (sender_set_value w v).1.event = .ok v) ∧
    ((sender_set_exception w e).2 = false ∧
      (sender_set_exception w e).1.senderAttached = false ∧
      sender_drop (sender_set_exception w e).1 = (sender_set_exception w e).1 ∧
      await_resume (sender_set_exception w e).1.event = .thrown (.user e)) := by
  obtain ⟨⟨⟨fs, fv, fa⟩, value, r⟩, att⟩ := w
  subst hatt
  have hfs : fs = true := hs
  subst hfs
  refine ⟨⟨rfl, rfl, rfl, rfl, fun v2 => ⟨rfl, rfl⟩, fun e2 => rfl, ?_⟩, rfl, rfl, rfl, ?_⟩
  · simp [sender_set_value, set_value, on_result_set, await_resume]
  · simp [sender_set_exception, set_exception, on_result_set, await_resume]

/-- Witness for claim C10 at a concrete attached-sender world. -/
theorem claim_C10_witness :
    (sender_set_value (⟨⟨⟨true, false, false⟩, .empty, 0⟩, true⟩ : World Nat Nat) 7).2 = false ∧
    await_resume
      (sender_set_value (⟨⟨⟨true, false, false⟩, .empty, 0⟩, true⟩ : World Nat Nat) 7).1.event =
      ResumeRes.ok 7 := by
  have h := claim_C10 (⟨⟨⟨true, false, false⟩, .empty, 0⟩, true⟩ : World Nat Nat) 7 0 rfl rfl
  exact ⟨h.1.1, h.1.2.2.2.2.2.2⟩

end Coral

namespace Coral.Nursery

/-- Splitting a valid event list: both halves are valid, the second starting
from the counts accumulated by the first. -/
theorem nok_append : ∀ (p q : List NEv) (s c : Nat) (f : Bool),
    nok (p ++ q) s c f = true →
    nok p s c f = true ∧
      nok q (s + nstarts p) (c + ncompletes p) (f || decide (0 < nfinals p)) = true := by
  intro p
  induction p with
  | nil =>
    intro q s c f h
    simpa [nok, nstarts, ncompletes, nfinals] using h
  | cons e p ih =>
    intro q s c f h
    cases e with
    | start =>
      rw [List.cons_append] at h
      simp only [nok, Bool.and_eq_true, Bool.not_eq_true'] at h
      obtain ⟨hf, h⟩ := h
      obtain ⟨h1, h2⟩ := ih q (s + 1) c f h
      subst hf
      refine ⟨by simp [nok, h1], ?_⟩
      have harith : s + 1 + nstarts p = s + nstarts (NEv.start :: p) := by
        simp [nstarts]
        omega
      rw [harith] at h2
      simpa [nstarts, ncompletes, nfinals] using h2
    | complete =>
      rw [List.cons_append] at h
      simp only [nok, Bool.and_eq_true, decide_eq_true_eq] at h
      obtain ⟨hcs, h⟩ := h
      obtain ⟨h1, h2⟩ := ih q s (c + 1) f h
      refine ⟨by simp [nok, h1, hcs], ?_⟩
      have harith : c + 1 + ncompletes p = c + ncompletes (NEv.complete :: p) := by
        simp [ncompletes]
        omega
      rw [harith] at h2
      simpa [nstarts, ncompletes, nfinals] using h2
    | pfinal =>
      rw [List.cons_append] at h
      simp only [nok, Bool.and_eq_true, Bool.not_eq_true'] at h
      obtain ⟨hf, h⟩ := h
      obtain ⟨h1, h2⟩ := ih q s c true h
      subst hf
      refine ⟨by simp [nok, h1], ?_⟩
      have hflag : (true || decide (0 < nfinals p)) =
          (false || decide (0 < nfinals (NEv.pfinal :: p))) := by
        simp [nfinals]
      rw [hflag] at h2
      simpa [nstarts, ncompletes, nfinals] using h2

theorem bi_false : bi false = 0 := rfl

theorem bi_true : bi true = 1 := rfl

theorem bi_le_one (f : Bool) : bi f ≤ 1 := by cases f <;> simp [bi]

theorem nrun_eq (es : List NEv) : nrun es = es.foldl nstep ⟨0, 0⟩ := rfl

theorem child_started_counter (st : NSt) : (child_started st).counter = st.counter + 1 := rfl

theorem child_started_resumes (st : NSt) : (child_started st).resumes = st.resumes := rfl

theorem child_completed_counter (st : NSt) : (child_completed st).counter = st.counter - 1 := rfl

theorem child_completed_resumes (st : NSt) :
    (child_completed st).resumes = if st.counter = 0 then st.resumes + 1 else st.resumes := rfl

/-- The decrement performed by `child_completed` keeps the
resumed-exactly-when-counter-reached-minus-one invariant, as long as the
counter was non-negative. -/
theorem child_completed_invariant (st : NSt) (hge : (0 : Int) ≤ st.counter)
    (hres : st.resumes = if st.counter = -1 then 1 else 0) :
    (child_completed st).resumes = if (child_completed st).counter = -1 then 1 else 0 := by
  rw [child_completed_resumes, child_completed_counter]
  by_cases h0 : st.counter = 0
  · rw [if_pos h0, hres, if_neg (show ¬st.counter = -1 by omega),
      if_pos (show st.counter - 1 = -1 by omega)]
  · rw [if_neg h0, hres, if_neg (show ¬st.counter = -1 by omega),
      if_neg (show ¬st.counter - 1 = -1 by omega)]

/-- Running the promise state machine over a valid event list: the counter
tracks starts minus completes minus finished-parent, the continuation has
been resumed exactly when the counter has reached -1, completes never exceed
starts, and the parent finishes at most once. -/
theorem nok_run : ∀ (es : List NEv) (s c : Nat) (f : Bool) (st : NSt),
    nok es s c f = true →
    c ≤ s →
    st.counter = (s : Int) - (c : Int) - (bi f : Int) →
    st.resumes = (if st.counter = -1 then 1 else 0) →
    (es.foldl nstep st).counter =
      ((s + nstarts es : Nat) : Int) - ((c + ncompletes es : Nat) : Int)
        - (bi f : Int) - (nfinals es : Int) ∧
    (es.foldl nstep st).resumes =
      (if (es.foldl nstep st).counter = -1 then 1 else 0) ∧
    c + ncompletes es ≤ s + nstarts es ∧
    nfinals es + bi f ≤ 1 := by
  intro es
  induction es with
  | nil =>
    intro s c f st _ hcs hcount hres
    have hb := bi_le_one f
    refine ⟨?_, by simpa using hres, ?_, ?_⟩
    · simp only [List.foldl_nil, nstarts, ncompletes, nfinals]
      omega
    · simp only [nstarts, ncompletes]
      omega
    · simp only [nfinals]
      omega
  | cons e es ih =>
    intro s c f st h hcs hcount hres
    cases e with
    | start =>
      simp only [nok, Bool.and_eq_true, Bool.not_eq_true'] at h
      obtain ⟨hf, h⟩ := h
      subst hf
      rw [bi_false] at hcount
      have hge : (0 : Int) ≤ st.counter := by omega
      have hres0 : st.resumes = 0 := by
        rw [hres, if_neg (show ¬st.counter = -1 by omega)]
      have h1 := ih (s + 1) c false (child_started st) h (by omega)
        (by rw [child_started_counter, bi_false]; omega)
        (by
          rw [child_started_resumes, child_started_counter, hres0,
            if_neg (show ¬st.counter + 1 = -1 by omega)])
      rw [List.foldl_cons, show nstep st NEv.start = child_started st from rfl,
        show nstarts (NEv.start :: es) = nstarts es + 1 from rfl,
        show ncompletes (NEv.start :: es) = ncompletes es from rfl,
        show nfinals (NEv.start :: es) = nfinals es from rfl]
      rw [bi_false] at h1 ⊢
      refine ⟨?_, h1.2.1, ?_, ?_⟩
      · rw [h1.1]; omega
      · have h2 := h1.2.2.1; omega
      · exact h1.2.2.2
    | complete =>
      simp only [nok, Bool.and_eq_true, decide_eq_true_eq] at h
      obtain ⟨hlt, h⟩ := h
      have hb := bi_le_one f
      have hge : (0 : Int) ≤ st.counter := by omega
      have h1 := ih s (c + 1) f (child_completed st) h (by omega)
        (by rw [child_completed_counter]; omega)
        (child_completed_invariant st hge hres)
      rw [List.foldl_cons, show nstep st NEv.complete = child_completed st from rfl,
        show nstarts (NEv.complete :: es) = nstarts es from rfl,
        show ncompletes (NEv.complete :: es) = ncompletes es + 1 from rfl,
        show nfinals (NEv.complete :: es) = nfinals es from rfl]
      refine ⟨?_, h1.2.1, ?_, ?_⟩
      · rw [h1.1]; omega
      · have h2 := h1.2.2.1; omega
      · exact h1.2.2.2
    | pfinal =>
      simp only [nok, Bool.and_eq_true, Bool.not_eq_true'] at h
      obtain ⟨hf, h⟩ := h
      subst hf
      rw [bi_false] at hcount
      have hge : (0 : Int) ≤ st.counter := by omega
      have h1 := ih s c true (child_completed st) h hcs
        (by rw [child_completed_counter, bi_true]; omega)
        (child_completed_invariant st hge hres)
      rw [List.foldl_cons, show nstep st NEv.pfinal = child_completed st from rfl,
        show nstarts (NEv.pfinal :: es) = nstarts es from rfl,
        show ncompletes (NEv.pfinal :: es) = ncompletes es from rfl,
        show nfinals (NEv.pfinal :: es) = nfinals es + 1 from rfl]
      rw [bi_true] at h1
      rw [bi_false]
      refine ⟨?_, h1.2.1, ?_, ?_⟩
      · rw [h1.1]; omega
      · have h2 := h1.2.2.1; omega
      · have h2 := h1.2.2.2; omega

end Coral.Nursery

namespace Coral

open Nursery

/-- Claim C1 (counterexample): the trace of a nursery task that spawns no
children is well formed, yet after the parent's own final-suspend decrement
the child counter is -1 — the counter does become negative, falsifying the
claimed `child-counter ≥ 0` lifetime invariant — and this decrement (which
observed the value 0) is precisely the one that resumes the parent's
continuation. -/
theorem claim_C1_counterexample :
    isFullTrace [NEv.pfinal] = true ∧
    (nrun [NEv.pfinal]).counter = -1 ∧
    (nrun [NEv.pfinal]).counter < 0 ∧
    (nrun [NEv.pfinal]).resumes = 1 := by
  refine ⟨by decide, by decide, by decide, by decide⟩

/-- Claim C1 (amended): the child counter starts at 0, `nursery::start`
increments it, each child exit and the parent's final suspend decrement it;
along every well-formed lifetime it stays ≥ -1, it is still ≥ 0 at every
proper prefix of the lifetime (with the parent continuation not yet resumed),
and at the end of the lifetime the final decrement — the one that observed 0
— has taken it to -1 and resumed the parent's continuation exactly once. -/
theorem claim_C1 (es : List NEv) (h : isFullTrace es = true) :
    ((nrun es).counter = -1 ∧ (nrun es).resumes = 1) ∧
    (∀ p q, p ++ q = es → q ≠ [] → 0 ≤ (nrun p).counter ∧ (nrun p).resumes = 0) ∧
    (∀ p q, p ++ q = es → -1 ≤ (nrun p).counter) := by
  simp only [isFullTrace, Bool.and_eq_true, decide_eq_true_eq] at h
  obtain ⟨⟨hv, hc⟩, hf⟩ := h
  have hmain := nok_run es 0 0 false ⟨0, 0⟩ hv (le_refl 0) (by simp [bi]) (by simp)
  have hprefix : ∀ p q : List NEv, p ++ q = es →
      (nrun p).counter = (nstarts p : Int) - (ncompletes p : Int) - (nfinals p : Int) ∧
      (nrun p).resumes = (if (nrun p).counter = -1 then 1 else 0) ∧
      ncompletes p ≤ nstarts p ∧ nfinals p ≤ 1 ∧
      nok q (nstarts p) (ncompletes p) (decide (0 < nfinals p)) = true := by
    intro p q hpq
    have hsplit := nok_append p q 0 0 false (by rw [hpq]; exact hv)
    have hp := nok_run p 0 0 false ⟨0, 0⟩ hsplit.1 (le_refl 0) (by simp [bi]) (by simp)
    rw [bi_false] at hp
    refine ⟨?_, hp.2.1, by have h2 := hp.2.2.1; omega, by have h2 := hp.2.2.2; omega, ?_⟩
    · rw [nrun_eq, hp.1]; omega
    · have h2 := hsplit.2
      simpa using h2
  rw [bi_false] at hmain
  refine ⟨?_, ?_, ?_⟩
  · have h1 : (nrun es).counter = -1 := by
      rw [nrun_eq, hmain.1]
      omega
    refine ⟨h1, ?_⟩
    rw [nrun_eq] at h1 ⊢
    rw [hmain.2.1, if_pos h1]
  · intro p q hpq hq
    obtain ⟨hcount, hres, hcs, hf1, hqok⟩ := hprefix p q hpq
    have hge : 0 ≤ (nrun p).counter := by
      by_contra hneg
      push_neg at hneg
      have hm1 : (nrun p).counter = -1 := by omega
      have hcseq : ncompletes p = nstarts p := by
        rw [hcount] at hm1; omega
      have hfeq : nfinals p = 1 := by
        rw [hcount] at hm1; omega
      cases q with
      | nil => exact hq rfl
      | cons e q2 =>
        rw [hcseq, hfeq] at hqok
        cases e <;> simp [nok] at hqok
    refine ⟨hge, ?_⟩
    rw [hres, if_neg (show ¬(nrun p).counter = -1 by omega)]
  · intro p q hpq
    obtain ⟨hcount, _, hcs, hf1, _⟩ := hprefix p q hpq
    rw [hcount]
    omega

/-- Witness for claim C1 at a concrete full trace (one child spawned and
completed before the parent finished). -/
theorem claim_C1_witness :
    (nrun [NEv.start, NEv.complete, NEv.pfinal]).counter = -1 ∧
    (nrun [NEv.start, NEv.complete, NEv.pfinal]).resumes = 1 ∧
    (nrun [NEv.start]).resumes = 0 := by
  have h := claim_C1 [NEv.start, NEv.complete, NEv.pfinal] (by decide)
  refine ⟨h.1.1, h.1.2, ?_⟩
  exact (h.2.1 [NEv.start] [NEv.complete, NEv.pfinal] rfl (by decide)).2

end Coral

namespace Coral.WhenAll

theorem on_ready_counter (n : Nat) (hs : Bool) (st : WASt) (ev : Nat × Bool) :
    (on_ready n hs st ev).counter = st.counter - 1 := rfl

theorem on_ready_resumes (n : Nat) (hs : Bool) (st : WASt) (ev : Nat × Bool) :
    (on_ready n hs st ev).resumes =
      (if st.counter = 1 then st.resumes + 1 else st.resumes) := rfl

theorem on_ready_firstFailed (n : Nat) (hs : Bool) (st : WASt) (ev : Nat × Bool) :
    (on_ready n hs st ev).firstFailed =
      (if !ev.2 && decide (st.firstFailed = n) then ev.1 else st.firstFailed) := rfl

theorem on_ready_stop (n : Nat) (hs : Bool) (st : WASt) (ev : Nat × Bool) :
    (on_ready n hs st ev).stopRequested =
      (st.stopRequested || (hs && (!ev.2 && decide (st.firstFailed = n)))) := rfl

/-- Folding completion events over the awaiter state: the counter goes down
by one per event, the parent is resumed exactly by the event that brings the
number of completions to N, the first failing event wins the CAS, and the
stop source is requested as soon as a failure is seen. -/
theorem waFold (n : Nat) (hasStop : Bool) :
    ∀ (events : List (Nat × Bool)) (st : WASt) (j : Nat),
    j + events.length ≤ n →
    (∀ e ∈ events, e.1 < n) →
    st.counter = (n : Int) - (j : Int) →
    st.resumes = (if j = n then 1 else 0) →
    (events.foldl (on_ready n hasStop) st).counter =
      (n : Int) - (j : Int) - (events.length : Int) ∧
    (events.foldl (on_ready n hasStop) st).resumes =
      (if j + events.length = n then 1 else 0) ∧
    (events.foldl (on_ready n hasStop) st).firstFailed =
      (if st.firstFailed = n then firstFailIdx n events else st.firstFailed) ∧
    (events.foldl (on_ready n hasStop) st).stopRequested =
      (st.stopRequested || (hasStop && (decide (st.firstFailed = n) && anyFail events))) := by
  intro events
  induction events with
  | nil =>
    intro st j hlen hidx hcount hres
    refine ⟨?_, by simpa using hres, ?_, ?_⟩
    · simp only [List.foldl_nil, List.length_nil]
      omega
    · by_cases hff : st.firstFailed = n
      · rw [List.foldl_nil, if_pos hff, firstFailIdx]
        exact hff
      · rw [List.foldl_nil, if_neg hff]
    · simp [anyFail]
  | cons e es ih =>
    intro st j hlen hidx hcount hres
    have hlen1 : j + 1 + es.length ≤ n := by
      simp only [List.length_cons] at hlen
      omega
    have hjlt : j < n := by omega
    have hres0 : st.resumes = 0 := by
      rw [hres, if_neg (by omega)]
    have hidx1 : e.1 < n := hidx e (List.mem_cons_self e es)
    have hidxrest : ∀ x ∈ es, x.1 < n := fun x hx => hidx x (List.mem_cons_of_mem e hx)
    have hst1count : (on_ready n hasStop st e).counter = (n : Int) - ((j + 1 : Nat) : Int) := by
      rw [on_ready_counter, hcount]
      push_cast
      ring
    have hst1res : (on_ready n hasStop st e).resumes = (if j + 1 = n then 1 else 0) := by
      rw [on_ready_resumes, hcount, hres0]
      by_cases h1 : (n : Int) - (j : Int) = 1
      · rw [if_pos h1, if_pos (by omega)]
      · rw [if_neg h1, if_neg (by omega)]
    have ih1 := ih (on_ready n hasStop st e) (j + 1) hlen1 hidxrest hst1count hst1res
    rw [List.foldl_cons]
    refine ⟨?_, ?_, ?_, ?_⟩
    · rw [ih1.1]
      simp only [List.length_cons]
      push_cast
      ring
    · rw [ih1.2.1]
      simp only [List.length_cons]
      by_cases hc : j + 1 + es.length = n
      · rw [if_pos hc, if_pos (by omega)]
      · rw [if_neg hc, if_neg (by omega)]
    · rw [ih1.2.2.1, on_ready_firstFailed]
      cases he : e.2 <;> by_cases hff : st.firstFailed = n <;>
        simp [he, hff, firstFailIdx, Nat.ne_of_lt hidx1]
    · rw [ih1.2.2.2, on_ready_stop, on_ready_firstFailed]
      cases he : e.2 <;> by_cases hff : st.firstFailed = n <;>
        simp [he, hff, anyFail, Nat.ne_of_lt hidx1]

/-- The index produced by the CAS winner is below the sentinel exactly when
some event failed. -/
theorem firstFailIdx_lt (n : Nat) :
    ∀ (events : List (Nat × Bool)), anyFail events = true →
    (∀ e ∈ events, e.1 < n) → firstFailIdx n events < n := by
  intro events
  induction events with
  | nil => intro h _; simp [anyFail] at h
  | cons e es ih =>
    intro h hidx
    cases he : e.2
    · rw [firstFailIdx, if_pos (by rw [he])]
      exact hidx e (List.mem_cons_self e es)
    · rw [firstFailIdx, if_neg (by rw [he]; simp)]
      refine ih ?_ fun x hx => hidx x (List.mem_cons_of_mem e hx)
      simp [anyFail, he] at h
      simpa [anyFail] using h

end Coral.WhenAll

namespace Coral

open WhenAll

/-- Claim C3: for `when_all` over a non-empty group of N tasks with a stop
source supplied, modelled as a linearized sequence of the N `on_ready`
completion events: if any task completes with success = false, the parent is
resumed (exactly once, by the last completion) with the first failing task's
error — `await_resume` rethrows the stored exception of the CAS-winning
index — `stop_requested()` is true in the final state, and at every prefix
of the history in which the parent has been resumed the stop request had
already been made. -/
theorem claim_C3 {ε α : Type} (n : Nat) (events : List (Nat × Bool))
    (errs : Nat → ε) (vals : Nat → α)
    (hn : 0 < n) (hlen : events.length = n)
    (hidx : ∀ e ∈ events, e.1 < n)
    (hfail : anyFail events = true) :
    (events.foldl (on_ready n true) (waInit n)).resumes = 1 ∧
    (events.foldl (on_ready n true) (waInit n)).stopRequested = true ∧
    (events.foldl (on_ready n true) (waInit n)).firstFailed = firstFailIdx n events ∧
    firstFailIdx n events < n ∧
    wa_await_resume n errs vals (events.foldl (on_ready n true) (waInit n)) =
      .error (errs (firstFailIdx n events)) ∧
    (∀ p q, p ++ q = events →
      1 ≤ (p.foldl (on_ready n true) (waInit n)).resumes →
      (p.foldl (on_ready n true) (waInit n)).stopRequested = true) := by
  have hmain := waFold n true events (waInit n) 0 (by omega) hidx (by simp [waInit])
    (by
      show (0 : Nat) = if 0 = n then 1 else 0
      rw [if_neg (show ¬0 = n by omega)])
  have hff : (events.foldl (on_ready n true) (waInit n)).firstFailed = firstFailIdx n events := by
    rw [hmain.2.2.1, if_pos (show (waInit n).firstFailed = n from rfl)]
  have hlt := firstFailIdx_lt n events hfail hidx
  refine ⟨?_, ?_, hff, hlt, ?_, ?_⟩
  · rw [hmain.2.1, if_pos (by omega)]
  · rw [hmain.2.2.2]
    simp [waInit, hfail]
  · rw [wa_await_resume, hff, if_pos hlt]
  · intro p q hpq hres
    have hidxp : ∀ e ∈ p, e.1 < n := fun x hx => hidx x (by rw [← hpq]; exact List.mem_append_left q hx)
    have hlenp : p.length ≤ n := by
      have : p.length + q.length = n := by rw [← hlen, ← hpq]; simp
      omega
    have hp := waFold n true p (waInit n) 0 (by omega) hidxp (by simp [waInit])
      (by
        show (0 : Nat) = if 0 = n then 1 else 0
        rw [if_neg (show ¬0 = n by omega)])
    have hplen : p.length = n := by
      by_contra hne
      rw [hp.2.1, if_neg (by omega)] at hres
      omega
    have hqnil : q = [] := by
      have : p.length + q.length = n := by rw [← hlen, ← hpq]; simp
      have : q.length = 0 := by omega
      exact List.length_eq_zero.mp this
    subst hqnil
    rw [List.append_nil] at hpq
    subst hpq
    rw [hp.2.2.2]
    simp [waInit, hfail]

/-- Witness for claim C3: two tasks, the second fails. -/
theorem claim_C3_witness :
    (([(0, true), (1, false)] : List (Nat × Bool)).foldl (on_ready 2 true)
      (waInit 2)).stopRequested = true ∧
    wa_await_resume 2 (fun i => i) (fun i => i)
      (([(0, true), (1, false)] : List (Nat × Bool)).foldl (on_ready 2 true) (waInit 2)) =
      .error 1 := by
  have h := claim_C3 2 [(0, true), (1, false)] (fun i => i) (fun i => i)
    (by decide) (by decide) (by decide) (by decide)
  exact ⟨h.2.1, h.2.2.2.2.1⟩

end Coral

namespace Coral.WhenAll

theorem pendCnt_append : ∀ xs ys : List TB, pendCnt (xs ++ ys) = pendCnt xs + pendCnt ys := by
  intro xs ys
  induction xs with
  | nil => simp [pendCnt]
  | cons b xs ih =>
    cases b with
    | sync ok => simp [pendCnt, ih]
    | pend =>
      simp [pendCnt, ih]
      omega

/-- The start loop of `await_suspend`: as long as no started task has failed
synchronously, the loop starts every task in order, leaving the counter at
N minus the number of synchronous completions; the first synchronous failure
short-circuits the loop at its own index `j`, after which the counter equals
the number of started-but-pending tasks and the parent has been resumed
exactly when that number is zero. -/
theorem loopGo_spec (n : Nat) (hasStop : Bool) :
    ∀ (l : List TB) (i p : Nat) (st : WASt),
    i + l.length + 1 = n →
    st.counter = (n : Int) - (i : Int) + (p : Int) →
    st.resumes = 0 →
    st.firstFailed = n →
    st.stopRequested = false →
    (∀ st2, loopGo n hasStop l i st = (st2, none) →
      st2.counter = (n : Int) - ((i + l.length : Nat) : Int) + ((p + pendCnt l : Nat) : Int) ∧
      st2.resumes = 0 ∧ st2.firstFailed = n ∧ st2.stopRequested = false) ∧
    (∀ st2 j, loopGo n hasStop l i st = (st2, some j) →
      ∃ k, j = i + k ∧ k < l.length ∧
        st2.counter = ((p + pendCnt (l.take (k + 1)) : Nat) : Int) ∧
        st2.resumes = (if p + pendCnt (l.take (k + 1)) = 0 then 1 else 0) ∧
        st2.firstFailed = j ∧
        st2.stopRequested = hasStop) := by
  intro l
  induction l with
  | nil =>
    intro i p st hlen hcount hres hff hstop
    constructor
    · intro st2 h2
      rw [loopGo] at h2
      have hst : st = st2 := congrArg Prod.fst h2
      subst hst
      refine ⟨?_, hres, hff, hstop⟩
      rw [hcount]
      simp only [List.length_nil, pendCnt]
      omega
    · intro st2 j h2
      rw [loopGo] at h2
      have hsnd := congrArg Prod.snd h2
      simp at hsnd
  | cons b rest ih =>
    intro i p st hlen hcount hres hff hstop
    have hin : i + 2 ≤ n := by
      simp only [List.length_cons] at hlen
      omega
    cases b with
    | pend =>
      have hstep : loopGo n hasStop (TB.pend :: rest) i st =
          loopGo n hasStop rest (i + 1) st := by
        simp only [loopGo, startOne]
        rw [if_neg (by rw [hff]; omega)]
      have ih1 := ih (i + 1) (p + 1) st
        (by simp only [List.length_cons] at hlen; omega)
        (by rw [hcount]; push_cast; ring) hres hff hstop
      rw [hstep]
      constructor
      · intro st2 h2
        obtain ⟨hc, hr, hf, hs⟩ := ih1.1 st2 h2
        refine ⟨?_, hr, hf, hs⟩
        rw [hc]
        simp only [List.length_cons, pendCnt]
        omega
      · intro st2 j h2
        obtain ⟨k, hk, hklt, hc, hr, hf, hs⟩ := ih1.2 st2 j h2
        refine ⟨k + 1, by omega, by simp only [List.length_cons]; omega, ?_, ?_, hf, hs⟩
        · rw [hc]
          simp only [List.take_succ_cons, pendCnt]
          omega
        · rw [hr]
          simp only [List.take_succ_cons, pendCnt]
          by_cases hz : p + 1 + pendCnt (rest.take (k + 1)) = 0
          · rw [if_pos hz, if_pos (by omega)]
          · rw [if_neg hz, if_neg (by omega)]
    | sync ok =>
      have h1 : ¬st.counter = 1 := by rw [hcount]; omega
      cases ok with
      | true =>
        have hff1 : (on_ready n hasStop st (i, true)).firstFailed = n := by
          rw [on_ready_firstFailed]
          simpa using hff
        have hcount1 : (on_ready n hasStop st (i, true)).counter =
            (n : Int) - ((i + 1 : Nat) : Int) + (p : Int) := by
          rw [on_ready_counter, hcount]
          push_cast
          ring
        have hres1 : (on_ready n hasStop st (i, true)).resumes = 0 := by
          rw [on_ready_resumes, if_neg h1]
          exact hres
        have hstop1 : (on_ready n hasStop st (i, true)).stopRequested = false := by
          rw [on_ready_stop]
          simp [hstop]
        have hstep : loopGo n hasStop (TB.sync true :: rest) i st =
            loopGo n hasStop rest (i + 1) (on_ready n hasStop st (i, true)) := by
          simp only [loopGo, startOne]
          rw [if_neg (by rw [hff1]; omega)]
        have ih1 := ih (i + 1) p (on_ready n hasStop st (i, true))
          (by simp only [List.length_cons] at hlen; omega) hcount1 hres1 hff1 hstop1
        rw [hstep]
        constructor
        · intro st2 h2
          obtain ⟨hc, hr, hf, hs⟩ := ih1.1 st2 h2
          refine ⟨?_, hr, hf, hs⟩
          rw [hc]
          simp only [List.length_cons, pendCnt]
          omega
        · intro st2 j h2
          obtain ⟨k, hk, hklt, hc, hr, hf, hs⟩ := ih1.2 st2 j h2
          refine ⟨k + 1, by omega, by simp only [List.length_cons]; omega, ?_, ?_, hf, hs⟩
          · rw [hc]
            simp only [List.take_succ_cons, pendCnt]
          · rw [hr]
            simp only [List.take_succ_cons, pendCnt]
      | false =>
        have hff1 : (on_ready n hasStop st (i, false)).firstFailed = i := by
          rw [on_ready_firstFailed]
          simp [hff]
        have hcount1 : (on_ready n hasStop st (i, false)).counter =
            (n : Int) - (i : Int) + (p : Int) - 1 := by
          rw [on_ready_counter, hcount]
        have hres1 : (on_ready n hasStop st (i, false)).resumes = 0 := by
          rw [on_ready_resumes, if_neg h1]
          exact hres
        have hstop1 : (on_ready n hasStop st (i, false)).stopRequested = hasStop := by
          rw [on_ready_stop]
          simp [hstop, hff]
        have hstep : loopGo n hasStop (TB.sync false :: rest) i st =
            ({ on_ready n hasStop st (i, false) with
                counter := (on_ready n hasStop st (i, false)).counter -
                  ((n : Int) - ((i : Int) + 1))
                resumes := if (on_ready n hasStop st (i, false)).counter =
                    (n : Int) - ((i : Int) + 1)
                  then (on_ready n hasStop st (i, false)).resumes + 1
                  else (on_ready n hasStop st (i, false)).resumes }, some i) := by
          simp only [loopGo, startOne]
          rw [if_pos (by rw [hff1])]
        constructor
        · intro st2 h2
          rw [hstep] at h2
          have hsnd := congrArg Prod.snd h2
          simp at hsnd
        · intro st2 j h2
          rw [hstep] at h2
          have hj : i = j := by
            have hsnd := congrArg Prod.snd h2
            simpa using hsnd
          have hst2 : st2 = _ := (congrArg Prod.fst h2).symm
          subst hj
          refine ⟨0, by omega, by simp, ?_, ?_, ?_, ?_⟩
          · rw [hst2]
            show (on_ready n hasStop st (i, false)).counter - ((n : Int) - ((i : Int) + 1)) = _
            rw [hcount1]
            simp only [List.take_succ_cons, List.take_zero, pendCnt]
            omega
          · rw [hst2]
            show (if (on_ready n hasStop st (i, false)).counter = (n : Int) - ((i : Int) + 1)
                then (on_ready n hasStop st (i, false)).resumes + 1
                else (on_ready n hasStop st (i, false)).resumes) = _
            rw [hcount1, hres1]
            simp only [List.take_succ_cons, List.take_zero, pendCnt]
            by_cases hp : p = 0
            · rw [if_pos (by omega), if_pos (by omega)]
            · rw [if_neg (by omega), if_neg (by omega)]
          · rw [hst2]
            show (on_ready n hasStop st (i, false)).firstFailed = i
            exact hff1
          · rw [hst2]
            show (on_ready n hasStop st (i, false)).stopRequested = hasStop
            exact hstop1

/-- `await_suspend` over a non-empty task list: afterwards the counter equals
the number of started-but-pending tasks, the parent has been resumed exactly
when every started task already finished, at most N tasks are started (all N
when no short-circuit fired), and a short-circuit at index i means exactly
tasks `0 .. i` were started — the remaining ones are skipped — with the
failure recorded at i and the stop source requested. -/
theorem suspend_spec (hasStop : Bool) (bs : List TB) (hn : 1 ≤ bs.length) :
    (wa_await_suspend hasStop bs).st.counter =
      ((pendCnt (bs.take (wa_await_suspend hasStop bs).started) : Nat) : Int) ∧
    (wa_await_suspend hasStop bs).st.resumes =
      (if pendCnt (bs.take (wa_await_suspend hasStop bs).started) = 0 then 1 else 0) ∧
    (wa_await_suspend hasStop bs).started ≤ bs.length ∧
    ((wa_await_suspend hasStop bs).sc = none →
      (wa_await_suspend hasStop bs).started = bs.length) ∧
    (∀ i, (wa_await_suspend hasStop bs).sc = some i →
      (wa_await_suspend hasStop bs).started = i + 1 ∧ i + 1 < bs.length ∧
      (wa_await_suspend hasStop bs).st.firstFailed = i ∧
      (wa_await_suspend hasStop bs).st.stopRequested = hasStop) := by
  rcases List.eq_nil_or_concat bs with hbs | ⟨l, b, hbs⟩
  · subst hbs
    simp at hn
  · rw [List.concat_eq_append] at hbs
    subst hbs
    have hspec := loopGo_spec (l ++ [b]).length hasStop l 0 0 (waInit (l ++ [b]).length)
      (by simp) (by simp [waInit]) rfl rfl rfl
    have hunfold : wa_await_suspend hasStop (l ++ [b]) =
        (match loopGo (l ++ [b]).length hasStop l 0 (waInit (l ++ [b]).length) with
         | (st, some i) => (⟨st, i + 1, some i⟩ : SuspOut)
         | (st, none) => ⟨startOne (l ++ [b]).length hasStop st ((l ++ [b]).length - 1) b,
             (l ++ [b]).length, none⟩) := by
      simp only [wa_await_suspend, List.dropLast_concat, List.getLast?_concat]
    rcases hpair : loopGo (l ++ [b]).length hasStop l 0 (waInit (l ++ [b]).length)
      with ⟨st, sc⟩
    rw [hpair] at hunfold
    cases sc with
    | none =>
      obtain ⟨hc, hr, hf, hs⟩ := hspec.1 st hpair
      simp only at hunfold
      rw [hunfold]
      have htake : (l ++ [b]).take (l ++ [b]).length = l ++ [b] := List.take_length _
      have hpc : pendCnt (l ++ [b]) = pendCnt l + pendCnt [b] := pendCnt_append l [b]
      refine ⟨?_, ?_, le_refl _, fun _ => rfl, ?_⟩
      · show (startOne (l ++ [b]).length hasStop st ((l ++ [b]).length - 1) b).counter = _
        rw [htake, hpc]
        cases b with
        | pend =>
          show st.counter = _
          rw [hc]
          simp only [List.length_append, List.length_nil, List.length_cons, pendCnt]
          omega
        | sync ok =>
          show st.counter - 1 = _
          rw [hc]
          simp only [List.length_append, List.length_nil, List.length_cons, pendCnt]
          omega
      · show (startOne (l ++ [b]).length hasStop st ((l ++ [b]).length - 1) b).resumes = _
        rw [htake, hpc]
        cases b with
        | pend =>
          show st.resumes = _
          rw [hr, if_neg (by simp [pendCnt])]
        | sync ok =>
          show (if st.counter = 1 then st.resumes + 1 else st.resumes) = _
          rw [hr, hc]
          simp only [List.length_append, List.length_nil, List.length_cons, pendCnt]
          by_cases hz : pendCnt l = 0
          · rw [if_pos (by omega), if_pos (by omega)]
          · rw [if_neg (by omega), if_neg (by omega)]
      · intro i hi
        simp at hi
    | some j =>
      obtain ⟨k, hk, hklt, hc, hr, hf, hs⟩ := hspec.2 st j hpair
      simp only at hunfold
      rw [hunfold]
      have hk0 : j = k := by omega
      subst hk0
      have htake : (l ++ [b]).take (j + 1) = l.take (j + 1) :=
        List.take_append_of_le_length (by omega)
      refine ⟨?_, ?_, ?_, ?_, ?_⟩
      · show st.counter = _
        rw [hc, htake]
        omega
      · show st.resumes = _
        rw [hr, htake]
        simp
      · show j + 1 ≤ (l ++ [b]).length
        simp only [List.length_append, List.length_nil, List.length_cons]
        omega
      · intro hnone
        simp at hnone
      · intro i hi
        have hij : j = i := by simpa using hi
        subst hij
        refine ⟨rfl, ?_, hf, hs⟩
        simp only [List.length_append, List.length_nil, List.length_cons]
        omega

/-- Starting from the post-`await_suspend` state, folding the completion
events of the M started-but-pending tasks: the parent is resumed exactly
once, by the completion that makes all started tasks finished. -/
theorem pendFold (n : Nat) (hasStop : Bool) :
    ∀ (events : List (Nat × Bool)) (st : WASt) (M : Nat),
    events.length = M →
    st.counter = (M : Int) →
    st.resumes = (if M = 0 then 1 else 0) →
    ∀ k, k ≤ M →
    ((events.take k).foldl (on_ready n hasStop) st).counter = (M : Int) - (k : Int) ∧
    ((events.take k).foldl (on_ready n hasStop) st).resumes = (if M = k then 1 else 0) := by
  intro events
  induction events with
  | nil =>
    intro st M hlen hcount hres k hk
    have hM : M = 0 := by simpa using hlen.symm
    subst hM
    have hk0 : k = 0 := by omega
    subst hk0
    simp only [List.take_nil, List.foldl_nil]
    exact ⟨by rw [hcount]; omega, by simpa using hres⟩
  | cons e es ih =>
    intro st M hlen hcount hres k hk
    have hM : M = es.length + 1 := by simpa using hlen.symm
    subst hM
    cases k with
    | zero =>
      simp only [List.take_zero, List.foldl_nil]
      refine ⟨?_, hres⟩
      rw [hcount]
      omega
    | succ k =>
      have hc1 : (on_ready n hasStop st e).counter = ((es.length : Nat) : Int) := by
        rw [on_ready_counter, hcount]
        push_cast
        ring
      have hr1 : (on_ready n hasStop st e).resumes = (if es.length = 0 then 1 else 0) := by
        rw [on_ready_resumes, hcount, hres]
        by_cases h0 : es.length = 0
        · rw [if_pos (by omega), if_neg (by omega), if_pos h0]
        · rw [if_neg (by omega), if_neg (by omega), if_neg h0]
      have ih1 := ih (on_ready n hasStop st e) es.length rfl hc1 hr1 k (by omega)
      rw [List.take_succ_cons, List.foldl_cons]
      refine ⟨?_, ?_⟩
      · rw [ih1.1]
        push_cast
        ring
      · rw [ih1.2]
        by_cases hke : es.length = k
        · rw [if_pos hke, if_pos (by omega)]
        · rw [if_neg hke, if_neg (by omega)]

end Coral.WhenAll

namespace Coral

open WhenAll in
/-- Claim C4: `when_all` starts its tasks sequentially and short-circuits on
an early synchronous failure: a short-circuit at index i means exactly tasks
`0 .. i` were started (the remaining ones are never started) with the failure
recorded at i, the counter is left at the number of started-but-pending
tasks (it was adjusted by the number of unstarted tasks), so the parent is
resumed exactly once — by whatever completion makes all started tasks
finished; concretely, for
`when_all(int_task(10), throwing_int_task("x"), never_started_task())` the
run yields the error "x" and only the first two tasks are started. -/
theorem claim_C4 (hasStop : Bool) (bs : List TB) (hn : 1 ≤ bs.length)
    (events : List (Nat × Bool))
    (hev : events.length = pendCnt (bs.take (wa_await_suspend hasStop bs).started)) :
    ((wa_await_suspend hasStop bs).st.counter =
      ((pendCnt (bs.take (wa_await_suspend hasStop bs).started) : Nat) : Int)) ∧
    (∀ i, (wa_await_suspend hasStop bs).sc = some i →
      (wa_await_suspend hasStop bs).started = i + 1 ∧ i + 1 < bs.length ∧
      (wa_await_suspend hasStop bs).st.firstFailed = i) ∧
    (∀ k, k ≤ events.length →
      ((events.take k).foldl (on_ready bs.length hasStop)
          (wa_await_suspend hasStop bs).st).resumes
        = (if k = events.length then 1 else 0)) ∧
    whenAllSyncRun false [TB.sync true, TB.sync false, TB.sync true]
        (fun i => if i = 1 then "x" else "ok") (fun i => (i : Nat)) =
      (.error "x", 2) := by
  have hs := suspend_spec hasStop bs hn
  refine ⟨hs.1, ?_, ?_, ?_⟩
  · intro i hi
    exact ⟨(hs.2.2.2.2 i hi).1, (hs.2.2.2.2 i hi).2.1, (hs.2.2.2.2 i hi).2.2.1⟩
  · intro k hk
    have hp := pendFold bs.length hasStop events (wa_await_suspend hasStop bs).st
      (pendCnt (bs.take (wa_await_suspend hasStop bs).started)) hev hs.1 hs.2.1 k
      (by omega)
    rw [hp.2]
    by_cases hke : k = events.length
    · rw [if_pos (by omega), if_pos hke]
    · rw [if_neg (by omega), if_neg hke]
  · rfl

open WhenAll in
/-- Witness for claim C4 at the concrete scenario of spec item C: three
synchronous tasks, the second failing. -/
theorem claim_C4_witness :
    (wa_await_suspend false [TB.sync true, TB.sync false, TB.sync true]).started = 2 ∧
    whenAllSyncRun false [TB.sync true, TB.sync false, TB.sync true]
        (fun i => if i = 1 then "x" else "ok") (fun i => (i : Nat)) =
      (.error "x", 2) := by
  have h := claim_C4 false [TB.sync true, TB.sync false, TB.sync true] (by decide)
    [] (by decide)
  exact ⟨(h.2.1 1 rfl).1, h.2.2.2⟩

end Coral

namespace Coral.WhenAllComplete

/-- The `when_all_complete` counter protocol: one decrement per completion,
the parent resumed exactly by the completion that brings the count to N. -/
theorem wcFold : ∀ (events : List Bool) (st : WCSt) (j n : Nat),
    j + events.length ≤ n →
    st.counter = (n : Int) - (j : Int) →
    st.resumes = (if j = n then 1 else 0) →
    (events.foldl wc_on_ready st).counter = (n : Int) - (j : Int) - (events.length : Int) ∧
    (events.foldl wc_on_ready st).resumes = (if j + events.length = n then 1 else 0) := by
  intro events
  induction events with
  | nil =>
    intro st j n hlen hcount hres
    simp only [List.foldl_nil, List.length_nil]
    exact ⟨by rw [hcount]; omega, by simpa using hres⟩
  | cons e es ih =>
    intro st j n hlen hcount hres
    have hjn : j < n := by
      simp only [List.length_cons] at hlen
      omega
    have hres0 : st.resumes = 0 := by rw [hres, if_neg (by omega)]
    have hc1 : (wc_on_ready st e).counter = (n : Int) - ((j + 1 : Nat) : Int) := by
      show st.counter - 1 = _
      rw [hcount]
      push_cast
      ring
    have hr1 : (wc_on_ready st e).resumes = (if j + 1 = n then 1 else 0) := by
      show (if st.counter = 1 then st.resumes + 1 else st.resumes) = _
      rw [hcount, hres0]
      by_cases h1 : (n : Int) - (j : Int) = 1
      · rw [if_pos h1, if_pos (by omega)]
      · rw [if_neg h1, if_neg (by omega)]
    have ih1 := ih (wc_on_ready st e) (j + 1) n
      (by simp only [List.length_cons] at hlen; omega) hc1 hr1
    rw [List.foldl_cons]
    refine ⟨?_, ?_⟩
    · rw [ih1.1]
      simp only [List.length_cons]
      push_cast
      ring
    · rw [ih1.2]
      simp only [List.length_cons]
      by_cases hc : j + 1 + es.length = n
      · rw [if_pos hc, if_pos (by omega)]
      · rw [if_neg hc, if_neg (by omega)]

end Coral.WhenAllComplete

namespace Coral

open WhenAllComplete in
/-- Claim C5: for `when_all_complete` over N tasks: `await_resume` is a total
function (the combinator itself never throws) yielding exactly one
`async_result` per input task, in input order, `ok(v)` for a task that
produced a value and `err(e)` for a task that ended with an exception; the
parent is resumed exactly once, by the N-th completion (for an empty range
`await_ready` is true and the caller is not suspended at all). -/
theorem claim_C5 {α ε : Type} (tasks : List (Outcome α ε)) (events : List Bool)
    (hlen : events.length = tasks.length) :
    (wc_await_resume tasks).length = tasks.length ∧
    (∀ i, (wc_await_resume tasks).get? i = (tasks.get? i).map get_result) ∧
    (∀ i v, tasks.get? i = some (.val v) → (wc_await_resume tasks).get? i = some (.ok v)) ∧
    (∀ i e, tasks.get? i = some (.exn e) → (wc_await_resume tasks).get? i = some (.err e)) ∧
    (0 < tasks.length →
      (events.foldl wc_on_ready (wcInit tasks.length)).resumes = 1 ∧
      (∀ p q, p ++ q = events → q ≠ [] →
        (p.foldl wc_on_ready (wcInit tasks.length)).resumes = 0)) ∧
    (tasks.length = 0 → wc_await_ready tasks = true) := by
  have hget : ∀ i, (wc_await_resume tasks).get? i = (tasks.get? i).map get_result := by
    intro i
    simp [wc_await_resume]
  refine ⟨by simp [wc_await_resume], hget, ?_, ?_, ?_, ?_⟩
  · intro i v hv
    rw [hget i, hv]
    rfl
  · intro i e he
    rw [hget i, he]
    rfl
  · intro hpos
    refine ⟨?_, ?_⟩
    · have h := wcFold events (wcInit tasks.length) 0 tasks.length (by omega)
        (by simp [wcInit])
        (by
          show (0 : Nat) = if 0 = tasks.length then 1 else 0
          rw [if_neg (show ¬0 = tasks.length by omega)])
      rw [h.2, if_pos (by omega)]
    · intro p q hpq hq
      have hplen : p.length < events.length := by
        rw [← hpq]
        simp only [List.length_append]
        cases q with
        | nil => exact absurd rfl hq
        | cons x xs => simp
      have h := wcFold p (wcInit tasks.length) 0 tasks.length (by omega)
        (by simp [wcInit])
        (by
          show (0 : Nat) = if 0 = tasks.length then 1 else 0
          rw [if_neg (show ¬0 = tasks.length by omega)])
      rw [h.2, if_neg (by omega)]
  · intro h0
    rw [wc_await_ready, List.isEmpty_iff, ← List.length_eq_zero]
    exact h0

open WhenAllComplete in
/-- Witness for claim C5: two tasks, one value and one exception. -/
theorem claim_C5_witness :
    (wc_await_resume [Outcome.val (1 : Nat), Outcome.exn (7 : Nat)]).get? 0 =
      some (AsyncResult.ok 1) ∧
    (wc_await_resume [Outcome.val (1 : Nat), Outcome.exn (7 : Nat)]).get? 1 =
      some (AsyncResult.err 7) ∧
    (([true, false] : List Bool).foldl wc_on_ready (wcInit 2)).resumes = 1 := by
  have h := claim_C5 [Outcome.val (1 : Nat), Outcome.exn (7 : Nat)] [true, false] rfl
  exact ⟨h.2.2.1 0 1 rfl, h.2.2.2.1 1 7 rfl, (h.2.2.2.2.1 (by decide)).1⟩

open WhenAny in
/-- Claim C6: awaiting `when_any` on an empty range does not suspend the
caller — `await_ready` is true for an empty task vector — and `await_resume`
raises the no-tasks error (for every awaiter state). -/
theorem claim_C6 {α ε : Type} (st : WAnySt) (errs : Nat → ε) (vals : Nat → α) :
    wany_await_ready ([] : List (WhenAllComplete.Outcome α ε)) = true ∧
    wany_await_resume (([] : List (WhenAllComplete.Outcome α ε)).length) st errs vals =
      WanyRes.noTasks := by
  exact ⟨rfl, rfl⟩

end Coral

namespace Coral.Mutex

/-- Protocol invariant of the mutex word: it is `unlocked` exactly when no
coroutine holds the lock. -/
theorem invariant_aux : ∀ s : MSys,
    Relation.ReflTransGen MStep ⟨.unlocked, false⟩ s →
    (s.holder = false ↔ s.head = .unlocked) := by
  intro s h
  induction h with
  | refl => simp
  | tail hb step ih =>
    cases step with
    | lock_acquire hs => simp
    | lock_queue cur hs =>
      refine ⟨fun hh => absurd (ih.mp hh) hs, fun hh => by simp at hh⟩
    | unlock_free hhold hs => simp
    | unlock_handoff h2 hhold hs => simp

end Coral.Mutex

namespace Coral

open Mutex in
/-- Claim C7: `mutex::try_unlock` follows the unlock protocol on the head
word: observing `unlocked` aborts the program; observing `locked`-empty
leaves the mutex unlocked; observing a waiter node returns that node for the
handoff and stores `locked`-empty as the new head — and in every reachable
state in which a coroutine actually holds the lock, the head word is not
`unlocked`, so the abort branch is unreachable. -/
theorem claim_C7 :
    (∀ s : MSys, Reachable s → s.holder = true →
      s.head ≠ .unlocked ∧ try_unlock s.head ≠ none) ∧
    try_unlock .unlocked = none ∧
    try_unlock .locked = some (.unlocked, .locked) ∧
    (∀ h, try_unlock (.node h) = some (.locked, .node h)) := by
  refine ⟨?_, rfl, rfl, fun h => rfl⟩
  intro s hs hold
  have hinv := invariant_aux s hs
  have hne : s.head ≠ .unlocked := by
    intro he
    have hcontra := hinv.mpr he
    rw [hold] at hcontra
    simp at hcontra
  refine ⟨hne, ?_⟩
  cases hh : s.head with
  | unlocked => exact absurd hh hne
  | locked => simp [try_unlock]
  | node h => simp [try_unlock]

open Mutex in
/-- Witness for claim C7 at the reachable state reached by one successful
`try_lock`: the lock is held, the head word is `locked`, and `try_unlock`
does not abort. -/
theorem claim_C7_witness :
    Head.locked ≠ Head.unlocked ∧ try_unlock Head.locked ≠ none := by
  have hr : Reachable ⟨Head.locked, true⟩ :=
    Relation.ReflTransGen.single (MStep.lock_acquire ⟨Head.unlocked, false⟩ rfl)
  exact claim_C7.1 ⟨Head.locked, true⟩ hr rfl

open Mutex in
/-- Claim C9: `unique_lock::unlock` is idempotent.  A first call that does
not abort leaves the stored mutex pointer null and the stored next pointer
at the `locked` sentinel (a queued successor in `next_` is handed off
directly without calling `try_unlock`), so every subsequent call — with any
mutex word — performs no handoff, never calls `mutex::try_unlock`, never
aborts and leaves everything unchanged; the same holds for a call on a
moved-from `unique_lock` (null mutex, `unlocked` next). -/
theorem claim_C9 (ul : UL) (head : Head)
    (hab : (ul_unlock ul head).aborted = false) :
    (ul_unlock ul head).ul = ⟨false, .locked⟩ ∧
    (∀ h, ul.nxt = Head.node h →
      (ul_unlock ul head).sched = some h ∧ (ul_unlock ul head).usedTryUnlock = false) ∧
    (∀ hd : Head, ul_unlock (ul_unlock ul head).ul hd =
      ⟨⟨false, .locked⟩, hd, none, false, false⟩) ∧
    (∀ hd : Head, ul_unlock ⟨false, .unlocked⟩ hd =
      ⟨⟨false, .locked⟩, hd, none, false, false⟩) := by
  have hsecond : ∀ hd : Head, ul_unlock ⟨false, Head.locked⟩ hd =
      ⟨⟨false, .locked⟩, hd, none, false, false⟩ := fun hd => rfl
  have hmoved : ∀ hd : Head, ul_unlock ⟨false, Head.unlocked⟩ hd =
      ⟨⟨false, .locked⟩, hd, none, false, false⟩ := fun hd => rfl
  have hfirst : (ul_unlock ul head).ul = ⟨false, .locked⟩ := by
    obtain ⟨hm, nxt⟩ := ul
    cases nxt with
    | node h => rfl
    | unlocked =>
      cases hm with
      | false => rfl
      | true =>
        cases head with
        | unlocked => simp [ul_unlock, try_unlock] at hab
        | locked => rfl
        | node h => rfl
    | locked =>
      cases hm with
      | false => rfl
      | true =>
        cases head with
        | unlocked => simp [ul_unlock, try_unlock] at hab
        | locked => rfl
        | node h => rfl
  refine ⟨hfirst, ?_, ?_, hmoved⟩
  · intro h hnxt
    obtain ⟨hm, nxt⟩ := ul
    simp only at hnxt
    subst hnxt
    exact ⟨rfl, rfl⟩
  · intro hd
    rw [hfirst]
    exact hsecond hd

open Mutex in
/-- Witness for claim C9: a lock holder with no queued successor unlocking a
`locked`-empty mutex, then unlocking again. -/
theorem claim_C9_witness :
    (ul_unlock ⟨true, Head.locked⟩ Head.locked).ul = ⟨false, Head.locked⟩ ∧
    ul_unlock (ul_unlock ⟨true, Head.locked⟩ Head.locked).ul Head.unlocked =
      ⟨⟨false, Head.locked⟩, Head.unlocked, none, false, false⟩ := by
  have h := claim_C9 ⟨true, Head.locked⟩ Head.locked rfl
  exact ⟨h.1, h.2.2.1 Head.unlocked⟩

end Coral

namespace Coral.Generator

theorem gwalk_succ {α ε : Type} (fuel : Nat) (it : Iter α ε) :
    gwalk (fuel + 1) it =
      if itAtEnd it then ([], it)
      else
        match itDeref it, itNext it with
        | some v, .ok it2 => (v :: (gwalk fuel it2).1, (gwalk fuel it2).2)
        | _, _ => ([], it) := rfl

/-- Walking a producer that yields `S` and then returns, from the position
reached after `k+1` resumes: the remaining values of `S` come out in order
and the iterator ends at the final-suspended frame. -/
theorem gwalk_spec {α ε : Type} (S : List α) :
    ∀ d k, k ≤ S.length → d = S.length - k →
    gwalk (d + 1) (some (⟨S, none, k + 1⟩ : GenCoro α ε)) =
      (S.drop k, some ⟨S, none, S.length + 1⟩) := by
  intro d
  induction d with
  | zero =>
    intro k hk hd
    have hkl : k = S.length := by omega
    subst hkl
    rw [gwalk_succ, if_pos (by simp [itAtEnd, gdone])]
    rw [List.drop_length]
  | succ d ihd =>
    intro k hk hd
    have hklt : k < S.length := by omega
    rw [gwalk_succ, if_neg (by simp [itAtEnd, gdone]; omega)]
    have hderef : itDeref (some (⟨S, none, k + 1⟩ : GenCoro α ε)) =
        some (S.get ⟨k, hklt⟩) := by
      simp only [itDeref, gvalue, Nat.add_sub_cancel]
      exact List.get?_eq_get hklt
    have hnext : itNext (some (⟨S, none, k + 1⟩ : GenCoro α ε)) =
        .ok (some ⟨S, none, k + 1 + 1⟩) := by
      simp [itNext, gresume, gexn]
    rw [hderef, hnext]
    have hrec := ihd (k + 1) (by omega) (by omega)
    show (S.get ⟨k, hklt⟩ :: (gwalk (d + 1) (some ⟨S, none, k + 1 + 1⟩)).1,
        (gwalk (d + 1) (some ⟨S, none, k + 1 + 1⟩)).2) =
      (S.drop k, some ⟨S, none, S.length + 1⟩)
    rw [hrec]
    rw [List.drop_eq_getElem_cons hklt]
    simp [List.get_eq_getElem]

end Coral.Generator

namespace Coral

open Generator in
/-- Claim C8: for a finite generator whose producer yields the sequence S
and then returns, `begin()` resumes the producer once without raising,
iterating from there to the end-sentinel yields exactly the values of S in
order, after the last value the iterator compares equal to the end-sentinel
(the producer is at its final suspend), and a null-handle iterator
(never-started generator or moved-from iterator) also compares equal to the
sentinel. -/
theorem claim_C8 {α ε : Type} (S : List α) :
    gbegin (some (⟨S, none, 0⟩ : GenCoro α ε)) = .ok (some ⟨S, none, 1⟩) ∧
    gwalk (S.length + 1) (some (⟨S, none, 1⟩ : GenCoro α ε)) =
      (S, some ⟨S, none, S.length + 1⟩) ∧
    itAtEnd (some (⟨S, none, S.length + 1⟩ : GenCoro α ε)) = true ∧
    itAtEnd (none : Iter α ε) = true := by
  refine ⟨by simp [gbegin, gresume, gexn], ?_, by simp [itAtEnd, gdone], rfl⟩
  have h := gwalk_spec (ε := ε) S S.length 0 (by omega) (by omega)
  simpa using h

end Coral
